import Mathlib

/-!
# Verification of the dxcompress LZW codec (src lzw.c)

This file gives a shallow embedding, in Lean, of the LZW compressor and
decompressor of the dxcompress repository (the functions lzwCompress,
lzwDecompress, writeCode, writePadding, checkRatio, readCode, discardPadding
and their helpers), together with theorems settling the frozen claims about
the natural-language specification.

Modelling conventions:
* Byte streams are `List Nat` with each element intended to be `< 256`
  (the C code reads bytes as unsigned char).  Where C performs an implicit
  truncation to unsigned char on a store, the model writes `% 256` explicitly.
* C `read`/`write` on file descriptors is modelled purely: a read returns
  `min requested available` bytes and 0 exactly at end of file, and written
  bytes are accumulated in lists.  Hence RESULT_READ_ERROR and
  RESULT_WRITE_ERROR cannot occur inside the model.
* The compressor's hash dictionary (findIndex / HashDict) implements an exact
  finite map from (prev, byte) pairs to codes: findIndex probes until it finds
  the exact key or an empty slot, the table (size 131101) is never full
  because at most 2^16 - 257 entries are live, and keys are never inserted
  twice.  It is therefore modelled as an association list with the same
  lookup/insert semantics.
* The C `double` ratio arithmetic (1.0 - in/out etc.) is modelled with exact
  rational numbers `ℚ`.
* Loops whose termination is not structural are modelled with an explicit
  fuel argument; every use supplies provably sufficient fuel.
* The `trace` field of the compressor state is a ghost field recording each
  (code, width) pair passed to writeCode; it does not influence any other
  field and has no counterpart in the C code.
-/

namespace Dxcompress

def MAGIC1 : Nat := 0x1F
def MAGIC2 : Nat := 0x9D
def CLEAR_CODE : Nat := 256
def FLAG_BLOCK_COMPRESS : Nat := 0x80
def CHECK_INTERVAL : Nat := 5000
def BUFFER_SIZE : Nat := 4096 * 8
def DICT_OFFSET : Nat := 257

/-- The result codes of algorithm.h (RESULT_OK, RESULT_READ_ERROR,
RESULT_WRITE_ERROR, RESULT_FORMAT_ERROR). -/
inductive Result where
  | ok
  | readError
  | writeError
  | formatError
deriving DecidableEq, Repr

/-- The writer half of `struct state` in lzw.c.  The bytes already written
are returned separately as lists, so the C fields buffer/bufferOffset appear
here as: `pend` is the partial byte stored at buffer[bufferOffset] when
`bitOffset > 0`, and committed bytes are emitted eagerly.  `trace` is ghost
instrumentation recording each (code, width) handed to writeCode. -/
structure EncState where
  pend : Nat
  bitOffset : Nat
  bytesInGroup : Nat
  currentBits : Nat
  inputBytes : Nat
  outputBytes : Nat
  checkOffset : Nat
  best : ℚ
  trace : List (Nat × Nat)
deriving DecidableEq, Repr

/-- The `while (bits >= 8)` loop of writeCode: emit whole bytes of `code`,
least significant byte first.  `fuel ≥ bits` always holds at call sites, so
the fuel-exhaustion branch is unreachable. -/
def emitWhole : Nat → Nat → Nat → List Nat × Nat × Nat
  | 0, code, bits => ([], code, bits)
  | fuel + 1, code, bits =>
    if 8 ≤ bits then
      let r := emitWhole fuel (code / 256) (bits - 8)
      (code % 256 :: r.1, r.2)
    else ([], code, bits)

/-- writeCode of lzw.c: append `code` to the bit-packed output at the current
width, returning the newly committed bytes. -/
def writeCode (code : Nat) (st : EncState) : List Nat × EncState :=
  let first : List Nat :=
    if 0 < st.bitOffset then [(st.pend ||| code <<< st.bitOffset) % 256] else []
  let code0 := if 0 < st.bitOffset then code >>> (8 - st.bitOffset) else code
  let bits0 := if 0 < st.bitOffset then st.currentBits - (8 - st.bitOffset)
               else st.currentBits
  let r := emitWhole bits0 code0 bits0
  let written := first ++ r.1
  (written,
    { st with
      pend := if 0 < r.2.2 then r.2.1 % 256 else st.pend
      bitOffset := r.2.2
      bytesInGroup := st.bytesInGroup + written.length
      outputBytes := st.outputBytes + written.length
      trace := st.trace ++ [(code, st.currentBits)] })

/-- writePadding of lzw.c: flush a pending partial byte, then pad with zero
bytes until the byte count of the current group is a multiple of the current
width.  Returns the committed bytes. -/
def writePadding (st : EncState) : List Nat × EncState :=
  let flush : List Nat := if 0 < st.bitOffset then [st.pend] else []
  let st1 := { st with
    bitOffset := 0
    bytesInGroup := st.bytesInGroup + flush.length
    outputBytes := st.outputBytes + flush.length }
  let mis := st1.bytesInGroup % st1.currentBits
  let st2 := { st1 with bytesInGroup := 0 }
  if mis = 0 then (flush, st2)
  else
    let pad := st2.currentBits - mis
    (flush ++ List.replicate pad 0,
     { st2 with outputBytes := st2.outputBytes + pad })

/-- checkRatio of lzw.c.  Returns true when the dictionary should be
cleared.  The C double division is modelled with exact rationals. -/
def checkRatio (st : EncState) : Bool × EncState :=
  if st.inputBytes < st.checkOffset then (false, st)
  else
    let st1 := { st with checkOffset := st.inputBytes + CHECK_INTERVAL }
    let r : ℚ := (st1.inputBytes : ℚ) / (st1.outputBytes : ℚ)
    if st1.best ≤ r then (false, { st1 with best := r })
    else (true, { st1 with best := 0 })

/-- Compressor dictionary lookup: the exact-map semantics of findIndex on
the hash table (probe until the exact (prev, byte) key or an empty slot). -/
def dictFind : List ((Nat × Nat) × Nat) → Nat × Nat → Option Nat
  | [], _ => none
  | (k, v) :: rest, key => if k = key then some v else dictFind rest key

/-- Full compressor state: writer state, dictionary and next free code. -/
structure EncFull where
  st : EncState
  dict : List ((Nat × Nat) × Nat)
  nextFree : Nat
deriving DecidableEq, Repr

/-- One miss iteration of the lzwCompress main loop: the dictionary did not
contain (cur, c).  Emits cur, performs the maxbits-9 quirk transition, and
then either inserts the new entry (growing the width at powers of two) or,
with a full dictionary, consults checkRatio and possibly emits CLEAR_CODE. -/
def missStep (maxbits : Nat) (fs : EncFull) (cur c : Nat) : List Nat × EncFull :=
  let dictEntries := 2 ^ maxbits
  let r1 := writeCode cur fs.st
  let r2 :=
    if fs.nextFree = 512 ∧ maxbits = 9 ∧ r1.2.currentBits = 9 then
      let p := writePadding r1.2
      (p.1, { p.2 with currentBits := 10 })
    else ([], r1.2)
  if fs.nextFree < dictEntries then
    let r3 :=
      if fs.nextFree &&& (fs.nextFree - 1) = 0 then
        let p := writePadding r2.2
        (p.1, { p.2 with currentBits := p.2.currentBits + 1 })
      else ([], r2.2)
    (r1.1 ++ r2.1 ++ r3.1,
      { st := r3.2
        dict := ((cur, c), fs.nextFree) :: fs.dict
        nextFree := fs.nextFree + 1 })
  else
    let rc := checkRatio r2.2
    if rc.1 then
      let r3 := writeCode CLEAR_CODE rc.2
      let r4 := writePadding r3.2
      (r1.1 ++ r2.1 ++ r3.1 ++ r4.1,
        { st := { r4.2 with currentBits := 9 }
          dict := []
          nextFree := DICT_OFFSET })
    else (r1.1 ++ r2.1, { fs with st := rc.2 })

/-- The main loop of lzwCompress over the remaining input bytes.  Returns
the emitted bytes, the final state and the final current sequence code. -/
def encLoop (maxbits : Nat) : List Nat → EncFull → Nat → List Nat × EncFull × Nat
  | [], fs, cur => ([], fs, cur)
  | c :: rest, fs, cur =>
    let fs1 := { fs with st := { fs.st with inputBytes := fs.st.inputBytes + 1 } }
    match dictFind fs1.dict (cur, c) with
    | some k => encLoop maxbits rest fs1 k
    | none =>
      let m := missStep maxbits fs1 cur c
      let r := encLoop maxbits rest m.2 c
      (m.1 ++ r.1, r.2)

/-- Initial writer state of lzwCompress (after the 3 header bytes are
placed in the buffer: outputBytes = 3, inputBytes = 1 for the first byte). -/
def encInit : EncState :=
  { pend := 0, bitOffset := 0, bytesInGroup := 0, currentBits := 9,
    inputBytes := 1, outputBytes := 3, checkOffset := CHECK_INTERVAL,
    best := 0, trace := [] }

/-- lzwCompress of lzw.c, as a pure function from the input byte list and
maxbits to the output byte list and the reported ratio (info->ratio). -/
def lzwCompress (input : List Nat) (maxbits : Nat) : List Nat × ℚ :=
  let header := [MAGIC1, MAGIC2, FLAG_BLOCK_COMPRESS ||| maxbits]
  match input with
  | [] => (header, -1)
  | b :: rest =>
    let r := encLoop maxbits rest { st := encInit, dict := [], nextFree := DICT_OFFSET } b
    let f := writeCode r.2.2 r.2.1.st
    let flush : List Nat := if 0 < f.2.bitOffset then [f.2.pend] else []
    let outBytes := f.2.outputBytes + flush.length
    (header ++ r.1 ++ f.1 ++ flush,
     1 - (outBytes : ℚ) / (f.2.inputBytes : ℚ))

/-- The ghost trace of a whole compressor run: every (code, width) pair
handed to writeCode by lzwCompress on the given input, in order (including
the final code written after end of input). -/
def encTrace (input : List Nat) (maxbits : Nat) : List (Nat × Nat) :=
  match input with
  | [] => []
  | b :: rest =>
    let r := encLoop maxbits rest { st := encInit, dict := [], nextFree := DICT_OFFSET } b
    (writeCode r.2.2 r.2.1.st).2.trace

/-! ## Decoder (lzwDecompress and its helpers)

The reader state merges the C fields buffer/bufferOffset/inputSize and the
input file descriptor into a single list `remaining` of bytes not yet
consumed: refills by readBuffer happen at chunk boundaries invisible to the
byte-level semantics (readBuffer fails only at true end of file, so where a
byte is demanded, success is equivalent to `remaining` being nonempty).
When `bitOffset > 0`, the head of `remaining` is the byte that the previous
readCode inspected without consuming (the C reads buffer[bufferOffset]
without incrementing bufferOffset in its final step). -/

structure DecState where
  remaining : List Nat
  bitOffset : Nat
  bytesInGroup : Nat
  currentBits : Nat
  inputBytes : Nat
  outputBytes : Nat
deriving DecidableEq, Repr

/-- The `while (bits >= 8)` loop of readCode: consume whole bytes, oring
them into the code at position `w - bits`.  Returns none at end of file
(readBuffer returned 0).  Call sites pass `fuel ≥ bits`, which makes the
fuel-exhaustion branch unreachable. -/
def readWhole (w : Nat) : Nat → Nat → Nat → DecState → Option (Nat × Nat) × DecState
  | 0, code, bits, st => (some (code, bits), st)
  | fuel + 1, code, bits, st =>
    if 8 ≤ bits then
      match st.remaining with
      | [] => (none, st)
      | b :: rest =>
        readWhole w fuel (code ||| b <<< (w - bits)) (bits - 8)
          { st with remaining := rest
                    bytesInGroup := st.bytesInGroup + 1
                    inputBytes := st.inputBytes + 1 }
    else (some (code, bits), st)

/-- readCode of lzw.c: read one code of `currentBits` bits.  Returns none
at end of file (the C return value 0); the consumed-byte counters of the
state are still advanced in that case, exactly as in the C code. -/
def readCode (st : DecState) : Option Nat × DecState :=
  let w := st.currentBits
  let step1 : Nat × Nat × DecState :=
    if 0 < st.bitOffset then
      match st.remaining with
      | b :: rest =>
        (b >>> st.bitOffset, w - (8 - st.bitOffset),
         { st with remaining := rest
                   bytesInGroup := st.bytesInGroup + 1
                   inputBytes := st.inputBytes + 1 })
      | [] =>
        -- Unreachable: bitOffset > 0 implies the previously inspected byte
        -- is still at the head of `remaining`.
        (0, w - (8 - st.bitOffset),
         { st with bytesInGroup := st.bytesInGroup + 1
                   inputBytes := st.inputBytes + 1 })
    else (0, w, st)
  match readWhole w step1.2.1 step1.1 step1.2.1 step1.2.2 with
  | (none, st1) => (none, st1)
  | (some (code1, bits1), st1) =>
    if 0 < bits1 then
      match st1.remaining with
      | [] => (none, st1)
      | b :: _ =>
        (some (code1 ||| (b &&& (2 ^ bits1 - 1)) <<< (w - bits1)),
         { st1 with bitOffset := bits1 })
    else (some code1, { st1 with bitOffset := bits1 })

/-- discardPadding of lzw.c: consume the partial byte if any, then skip the
group-alignment padding; requires at least one byte to remain available
after the skip (otherwise the C returns 0, modelled as none). -/
def discardPadding (st : DecState) : Option DecState :=
  let st1 :=
    if 0 < st.bitOffset then
      { st with remaining := st.remaining.tail
                bitOffset := 0
                bytesInGroup := st.bytesInGroup + 1
                inputBytes := st.inputBytes + 1 }
    else st
  let mis := st1.bytesInGroup % st1.currentBits
  let st2 := { st1 with bytesInGroup := 0 }
  if mis = 0 then some st2
  else
    let pad := st2.currentBits - mis
    let st3 := { st2 with inputBytes := st2.inputBytes + pad }
    if pad < st3.remaining.length then
      some { st3 with remaining := st3.remaining.drop pad }
    else none

/-- The per-call parameters of the decoder main loop. -/
structure DecCtx where
  maxbits : Nat
  blockCompress : Bool
  dictOffset : Nat
deriving DecidableEq, Repr

/-- Full decoder loop state: reader state, dictionary (entry i holds the
(prev, byte) pair of code dictOffset + i), next free code, previous code. -/
structure DecFull where
  ds : DecState
  dict : List (Nat × Nat)
  nextFree : Nat
  previousSeq : Nat
deriving DecidableEq, Repr

/-- Store an entry at index i of the decoder dictionary array
(dict[nextFree - dictOffset] = ... in lzwDecompress).  At every reachable
store, i ≤ length holds: below the high-water mark the C store overwrites a
stale entry left from before a CLEAR, at the mark it extends the live
region. -/
def dictPut (dict : List (Nat × Nat)) (i : Nat) (e : Nat × Nat) : List (Nat × Nat) :=
  if i < dict.length then dict.set i e else dict ++ [e]

/-- The expansion loop of lzwDecompress (`while (code > 0xFF)`): follow
prev links, collecting the byte of each entry in push order; returns the
collected bytes and the final literal code.  Call sites pass `fuel = code`,
sufficient because every stored prev is smaller than its code. -/
def expandCode (dict : List (Nat × Nat)) (dictOffset : Nat) : Nat → Nat → List Nat × Nat
  | 0, code => ([], code)
  | fuel + 1, code =>
    if 255 < code then
      let e := dict.getD (code - dictOffset) (0, 0)
      let r := expandCode dict dictOffset fuel e.1
      (e.2 :: r.1, r.2)
    else ([], code)

/-- Result of one accepted-code iteration of the decoder main loop. -/
inductive StepRes where
  | halt (r : Result) (ratioQ : Option ℚ) (emitted : List Nat)
  | next (emitted : List Nat) (fs : DecFull)
deriving DecidableEq, Repr

/-- One iteration of the lzwDecompress main loop after the code has been
read and validated against nextFree: either the CLEAR branch or the
expansion branch.  `ds` is the reader state after readCode. -/
def decStep (ctx : DecCtx) (fs : DecFull) (code : Nat) (ds : DecState) : StepRes :=
  let dictEntries := 2 ^ ctx.maxbits
  if ctx.blockCompress ∧ code = CLEAR_CODE then
    match discardPadding ds with
    | none => .halt .formatError none []
    | some ds1 =>
      let ds2 := { ds1 with currentBits := 9 }
      match readCode ds2 with
      | (none, ds3) =>
        .halt .ok (some (1 - (ds3.inputBytes : ℚ) / (ds3.outputBytes : ℚ))) []
      | (some p, ds3) =>
        if ctx.dictOffset ≤ p then .halt .formatError none []
        else
          .next [p % 256]
            { ds := { ds3 with outputBytes := ds3.outputBytes + 1 }
              dict := fs.dict
              nextFree := ctx.dictOffset
              previousSeq := p }
  else
    let code1 := if code = fs.nextFree then fs.previousSeq else code
    let e := expandCode fs.dict ctx.dictOffset code1 code1
    let emitted := e.2 % 256 :: e.1.reverse ++
      (if code = fs.nextFree then [e.2 % 256] else [])
    let ds1 := { ds with outputBytes := ds.outputBytes + emitted.length }
    if fs.nextFree < dictEntries then
      let dict1 := dictPut fs.dict (fs.nextFree - ctx.dictOffset) (fs.previousSeq, e.2 % 256)
      let nextFree1 := fs.nextFree + 1
      if (ds1.currentBits < ctx.maxbits ∨ ds1.currentBits = 9) ∧
          nextFree1 &&& (nextFree1 - 1) = 0 then
        match discardPadding ds1 with
        | none => .halt .formatError none emitted
        | some ds2 =>
          .next emitted
            { ds := { ds2 with currentBits := ds2.currentBits + 1 }
              dict := dict1, nextFree := nextFree1, previousSeq := code }
      else
        .next emitted
          { ds := ds1, dict := dict1, nextFree := nextFree1, previousSeq := code }
    else
      .next emitted { fs with ds := ds1, previousSeq := code }

/-- The bytes emitted by a decoder step in the KwKwK case (code equal to
next_free): the expansion of the previous code followed by that expansion's
first byte. -/
def kwkwkBytes (dict : List (Nat × Nat)) (dictOffset prev : Nat) : List Nat :=
  let e := expandCode dict dictOffset prev prev
  e.2 % 256 :: e.1.reverse ++ [e.2 % 256]

/-- The main loop of lzwDecompress.  Returns the result code, the bytes
emitted from this point on, and the reported ratio (none when the C code
returns without assigning info->ratio).  Each iteration consumes at least
one input byte, so any fuel exceeding the remaining length is sufficient;
the fuel-exhaustion branch is unreachable at such call sites. -/
def decLoop : Nat → DecCtx → DecFull → Result × List Nat × Option ℚ
  | 0, _, _ => (.readError, [], none)
  | fuel + 1, ctx, fs =>
    match readCode fs.ds with
    | (none, ds1) =>
      (.ok, [], some (1 - (ds1.inputBytes : ℚ) / (ds1.outputBytes : ℚ)))
    | (some code, ds1) =>
      if fs.nextFree < code then (.formatError, [], none)
      else
        match decStep ctx { fs with ds := ds1 } code ds1 with
        | .halt r q e => (r, e, q)
        | .next e fs1 =>
          let r := decLoop fuel ctx fs1
          (r.1, e ++ r.2.1, r.2.2)

/-- The header-filling loop of lzwDecompress
(`while (state.inputSize < 3)`).  The C code reads into the start of the
buffer (not at offset inputSize), so a nonempty prefix shorter than 3 bytes
is partially overwritten; the model reproduces this.  Returns none for the
RESULT_FORMAT_ERROR exit (read returned 0). -/
def fillHeader : Nat → List Nat → Nat → List Nat → Option (List Nat × Nat × List Nat)
  | 0, _, _, _ => none
  | fuel + 1, buffer, inputSize, stream =>
    if 3 ≤ inputSize then some (buffer, inputSize, stream)
    else
      let amount := min (BUFFER_SIZE - inputSize) stream.length
      if amount = 0 then none
      else
        fillHeader fuel (stream.take amount ++ buffer.drop amount)
          (inputSize + amount) (stream.drop amount)

/-- On an error return, only the output chunks already flushed by writeAll
(multiples of BUFFER_SIZE bytes) have been written; the rest of
outputBuffer is discarded. -/
def flushedOnly (out : List Nat) : List Nat :=
  out.take (BUFFER_SIZE * (out.length / BUFFER_SIZE))

/-- The post-header part of lzwDecompress: the reader starts at the byte
after the header (inputBytes = 3, width 9), reads the first code, validates
it against the initial nextFree and emits it as a literal byte, then runs
the main loop.  EOF at the first code returns RESULT_OK without assigning
info->ratio. -/
def decodeBody (maxbits : Nat) (blockCompress : Bool) (input : List Nat) :
    Result × List Nat × Option ℚ :=
  let dictOffset := if blockCompress then DICT_OFFSET else DICT_OFFSET - 1
  let ds0 : DecState :=
    { remaining := input, bitOffset := 0, bytesInGroup := 0,
      currentBits := 9, inputBytes := 3, outputBytes := 0 }
  match readCode ds0 with
  | (none, _) => (.ok, [], none)
  | (some p, ds1) =>
    if dictOffset ≤ p then (.formatError, [], none)
    else
      let ds2 := { ds1 with outputBytes := ds1.outputBytes + 1 }
      let ctx : DecCtx :=
        { maxbits := maxbits, blockCompress := blockCompress,
          dictOffset := dictOffset }
      let fs0 : DecFull :=
        { ds := ds2, dict := [], nextFree := dictOffset, previousSeq := p }
      let r := decLoop (input.length + 1) ctx fs0
      let emitted := p % 256 :: r.2.1
      match r.1 with
      | .ok => (.ok, emitted, r.2.2)
      | res => (res, flushedOnly emitted, none)

/-- Header validation of lzwDecompress, applied to the outcome of the
header-filling loop. -/
def parseHeader : Option (List Nat × Nat × List Nat) → Result × List Nat × Option ℚ
  | none => (.formatError, [], none)
  | some (buf, inputSize, stream) =>
    -- Bytes of the valid region [0, inputSize) beyond the written list are
    -- uninitialized stack memory in C; the model reads them as 0.
    let bufFull := buf ++ List.replicate (inputSize - buf.length) 0
    let valid := bufFull.take inputSize
    if valid.getD 0 0 = MAGIC1 ∧ valid.getD 1 0 = MAGIC2 then
      let b2 := valid.getD 2 0
      let maxbits := b2 &&& 0x1F
      if 9 ≤ maxbits ∧ maxbits ≤ 16 then
        if b2 &&& 0x60 = 0 then
          decodeBody maxbits (b2 &&& FLAG_BLOCK_COMPRESS ≠ 0) (valid.drop 3 ++ stream)
        else (.formatError, [], none)
      else (.formatError, [], none)
    else (.formatError, [], none)

/-- lzwDecompress of lzw.c, as a pure function from the probe buffer
(prefix_buffer) and the input stream to the result code, the written output
bytes and the reported ratio (none when info->ratio is never assigned). -/
def lzwDecompress (buffer input : List Nat) : Result × List Nat × Option ℚ :=
  parseHeader (fillHeader 4 buffer buffer.length input)

/-- The number of zero padding bytes required by the group-padding rule:
with B whole bytes in the current group after flushing a pending partial
byte, pad with w - (B mod w) zero bytes unless B mod w = 0. -/
def padLen (bytesInGroup bitOffset w : Nat) : Nat :=
  let B := bytesInGroup + (if 0 < bitOffset then 1 else 0)
  if B % w = 0 then 0 else w - B % w

/-- The invariant of a maxbits-9 compressor run: all traced codes are
below 512, all traced widths are 9 or 10, the current width is 9 or 10,
next_free stays in 257..512, and all dictionary codes are below next_free. -/
def Enc9Inv (fs : EncFull) : Prop :=
  (∀ cw ∈ fs.st.trace, cw.1 < 512 ∧ (cw.2 = 9 ∨ cw.2 = 10))
  ∧ (fs.st.currentBits = 9 ∨ fs.st.currentBits = 10)
  ∧ 257 ≤ fs.nextFree ∧ fs.nextFree ≤ 512
  ∧ (∀ kv ∈ fs.dict, kv.2 < fs.nextFree)

/-! ## Helper lemmas -/

theorem emitWhole_exit (fuel : Nat) : ∀ code bits : Nat, bits ≤ fuel →
    (emitWhole fuel code bits).2.2 < 8 ∧
    (code < 2 ^ bits →
      (emitWhole fuel code bits).2.1 < 2 ^ (emitWhole fuel code bits).2.2) := by
  induction fuel with
  | zero =>
    intro code bits hb
    have hb0 : bits = 0 := by omega
    subst hb0
    exact ⟨by simp [emitWhole], fun h => by simpa [emitWhole] using h⟩
  | succ n ih =>
    intro code bits hb
    rw [emitWhole]
    by_cases h8 : 8 ≤ bits
    · rw [if_pos h8]
      dsimp only
      have := ih (code / 256) (bits - 8) (by omega)
      refine ⟨this.1, fun hc => this.2 ?_⟩
      have h2 : (2 : Nat) ^ bits = 2 ^ (bits - 8) * 256 := by
        have : bits - 8 + 8 = bits := by omega
        calc (2 : Nat) ^ bits = 2 ^ (bits - 8 + 8) := by rw [this]
        _ = 2 ^ (bits - 8) * 2 ^ 8 := by rw [pow_add]
        _ = 2 ^ (bits - 8) * 256 := by norm_num
      rw [Nat.div_lt_iff_lt_mul (show (0:Nat) < 256 by decide)]
      omega
    · rw [if_neg h8]
      dsimp only
      exact ⟨by omega, fun hc => hc⟩

theorem fillHeader_nil_eq (s : List Nat) (h : 3 ≤ s.length) :
    fillHeader 4 [] 0 s =
      some (s.take (min BUFFER_SIZE s.length), min BUFFER_SIZE s.length,
            s.drop (min BUFFER_SIZE s.length)) := by
  have hbs : (3 : Nat) ≤ BUFFER_SIZE := by decide
  have hmin : 3 ≤ min BUFFER_SIZE s.length := le_min hbs h
  rw [fillHeader]
  simp only [show ¬ (3 ≤ (0 : Nat)) by decide, if_false]
  have hsub : BUFFER_SIZE - 0 = BUFFER_SIZE := rfl
  rw [hsub]
  have hne : ¬ (min BUFFER_SIZE s.length = 0) := by omega
  simp only [hne, if_false, List.drop_nil, List.append_nil, Nat.zero_add]
  rw [fillHeader]
  simp only [hmin, if_true]

/-- Reduction of lzwDecompress with an empty prefix buffer on an input of
at least three bytes: the header-filling loop reads the whole available
chunk and the decoder proceeds on the bytes after the header. -/
theorem lzwDecompress_header_eq (b0 b1 b2 : Nat) (rest : List Nat) :
    lzwDecompress [] (b0 :: b1 :: b2 :: rest) =
      if b0 = MAGIC1 ∧ b1 = MAGIC2 then
        if 9 ≤ b2 &&& 0x1F ∧ b2 &&& 0x1F ≤ 16 then
          if b2 &&& 0x60 = 0 then
            decodeBody (b2 &&& 0x1F) (b2 &&& FLAG_BLOCK_COMPRESS ≠ 0) rest
          else (.formatError, [], none)
        else (.formatError, [], none)
      else (.formatError, [], none) := by
  have hlen : 3 ≤ (b0 :: b1 :: b2 :: rest).length := by
    simp [List.length_cons]
  rw [lzwDecompress]
  simp only [List.length_nil]
  rw [fillHeader_nil_eq _ hlen, parseHeader]
  set s := b0 :: b1 :: b2 :: rest with hs
  set a := min BUFFER_SIZE s.length with ha
  have ha3 : 3 ≤ a := le_min (by decide) hlen
  have haslen : a ≤ s.length := min_le_right _ _
  have htlen : (s.take a).length = a := by
    rw [List.length_take]; omega
  obtain ⟨k, hk⟩ : ∃ k, a = k + 3 := ⟨a - 3, by omega⟩
  have htake : s.take a = b0 :: b1 :: b2 :: rest.take k := by
    rw [hs, hk]
    simp [List.take_succ_cons, Nat.add_comm]
  have hdrop : s.drop a = rest.drop k := by
    rw [hs, hk]
    simp [List.drop_succ_cons, Nat.add_comm]
  have hrepl : (s.take a) ++ List.replicate (a - (s.take a).length) 0 = s.take a := by
    rw [htlen]; simp
  simp only [hrepl]
  have hvalid : (s.take a).take a = s.take a := by
    rw [List.take_take]; simp
  simp only [hvalid]
  simp only [htake, hdrop]
  have h0 : (b0 :: b1 :: b2 :: rest.take k).getD 0 0 = b0 := rfl
  have h1 : (b0 :: b1 :: b2 :: rest.take k).getD 1 0 = b1 := rfl
  have h2 : (b0 :: b1 :: b2 :: rest.take k).getD 2 0 = b2 := rfl
  simp only [h0, h1, h2]
  have hrest : (b0 :: b1 :: b2 :: rest.take k).drop 3 ++ rest.drop k = rest := by
    simp [List.take_append_drop]
  simp only [hrest]

/-! ## Claim C2: header format rejection -/

/-- Claim C2: every decoder input whose first two bytes are not 0x1F, 0x9D,
or whose third byte has bit 5 or bit 6 set, or whose maxbits field (low
five bits of byte 2) lies outside 9..=16, is rejected with
RESULT_FORMAT_ERROR without a single output byte being written (and
without the ratio field being assigned). -/
theorem claim_C2 (b0 b1 b2 : Nat) (rest : List Nat)
    (h : b0 ≠ 0x1F ∨ b1 ≠ 0x9D ∨ b2 &&& 0x60 ≠ 0 ∨
         b2 &&& 0x1F < 9 ∨ 16 < b2 &&& 0x1F) :
    lzwDecompress [] (b0 :: b1 :: b2 :: rest) = (.formatError, [], none) := by
  rw [lzwDecompress_header_eq]
  rcases h with h | h | h | h | h
  · rw [if_neg]; intro hc; exact h hc.1
  · rw [if_neg]; intro hc; exact h hc.2
  · rcases Decidable.em (b0 = MAGIC1 ∧ b1 = MAGIC2) with hm | hm
    · rw [if_pos hm]
      rcases Decidable.em (9 ≤ b2 &&& 0x1F ∧ b2 &&& 0x1F ≤ 16) with hr | hr
      · rw [if_pos hr, if_neg h]
      · rw [if_neg hr]
    · rw [if_neg hm]
  · rcases Decidable.em (b0 = MAGIC1 ∧ b1 = MAGIC2) with hm | hm
    · rw [if_pos hm, if_neg]; omega
    · rw [if_neg hm]
  · rcases Decidable.em (b0 = MAGIC1 ∧ b1 = MAGIC2) with hm | hm
    · rw [if_pos hm, if_neg]; omega
    · rw [if_neg hm]

/-- Witness for claim C2 at a concrete input (reserved bit 5 set). -/
theorem claim_C2_witness :
    lzwDecompress [] [0x1F, 0x9D, 0xA0, 0x00] = (.formatError, [], none) :=
  claim_C2 0x1F 0x9D 0xA0 [0x00] (by decide)

/-! ## Claim C9: header bytes and empty input -/

/-- Claim C9: for every input B and maxbits in 9..=16, the first three
bytes of the compressor output are 0x1F, 0x9D, 0x80 ||| maxbits; for empty
input the output is exactly those three bytes (with the reported ratio
-1.0), and decoding those three bytes yields empty output with RESULT_OK. -/
theorem claim_C9 (m : Nat) (h9 : 9 ≤ m) (h16 : m ≤ 16) :
    (∀ B : List Nat, (lzwCompress B m).1.take 3 = [0x1F, 0x9D, 0x80 ||| m])
    ∧ lzwCompress [] m = ([0x1F, 0x9D, 0x80 ||| m], -1)
    ∧ lzwDecompress [] [0x1F, 0x9D, 0x80 ||| m] = (.ok, [], none) := by
  refine ⟨?_, rfl, ?_⟩
  · intro B
    cases B with
    | nil => rfl
    | cons b rest => rfl
  · interval_cases m <;> decide

/-- Witness for claim C9 at maxbits 12 and a concrete input. -/
theorem claim_C9_witness :
    (lzwCompress [65, 66, 65] 12).1.take 3 = [0x1F, 0x9D, 0x80 ||| 12]
    ∧ lzwDecompress [] [0x1F, 0x9D, 0x80 ||| 12] = (.ok, [], none) :=
  ⟨(claim_C9 12 (by decide) (by decide)).1 [65, 66, 65],
   (claim_C9 12 (by decide) (by decide)).2.2⟩

/-! ## Claim C10: the ratio out-parameter on the empty-stream path -/

theorem decStep_halt_ok {ctx : DecCtx} {fs : DecFull} {code : Nat} {ds : DecState}
    {q : Option ℚ} {e : List Nat} (h : decStep ctx fs code ds = .halt .ok q e) :
    q.isSome := by
  unfold decStep at h
  split at h
  · split at h
    · exact absurd h (by simp)
    · dsimp only at h
      split at h
      · injection h with h1 h2; subst h2; rfl
      · split at h
        · exact absurd h (by simp)
        · exact absurd h (by simp)
  · dsimp only at h
    split at h
    · split at h
      · split at h
        · exact absurd h (by simp)
        · exact absurd h (by simp)
      · exact absurd h (by simp)
    · exact absurd h (by simp)

theorem decLoop_ok_ratio (fuel : Nat) (ctx : DecCtx) :
    ∀ fs : DecFull, (decLoop fuel ctx fs).1 = .ok →
      ((decLoop fuel ctx fs).2.2).isSome := by
  induction fuel with
  | zero => intro fs h; simp [decLoop] at h
  | succ n ih =>
    intro fs h
    rw [decLoop] at h ⊢
    rcases hrc : readCode fs.ds with ⟨oc, ds1⟩
    rw [hrc] at h
    cases oc with
    | none => simp
    | some code =>
      simp only at h ⊢
      by_cases hlt : fs.nextFree < code
      · rw [if_pos hlt] at h; exact absurd h (by simp)
      · rw [if_neg hlt] at h ⊢
        rcases hds : decStep ctx { fs with ds := ds1 } code ds1 with ⟨r, q, e⟩ | ⟨e, fs1⟩
        · rw [hds] at h
          simp only at h ⊢
          subst h
          exact decStep_halt_ok hds
        · rw [hds] at h
          simp only at h ⊢
          exact ih fs1 h

theorem decodeBody_ok_ratio (m : Nat) (bc : Bool) (input : List Nat) :
    (decodeBody m bc input).1 = .ok →
    ((decodeBody m bc input).2.2 = none ↔ (decodeBody m bc input).2.1 = []) := by
  unfold decodeBody
  dsimp only
  generalize (if bc = true then DICT_OFFSET else DICT_OFFSET - 1) = d
  rcases hrc : readCode { remaining := input, bitOffset := 0, bytesInGroup := 0, currentBits := 9, inputBytes := 3, outputBytes := 0 } with ⟨oc, ds1⟩
  cases oc with
  | none => intro _; simp
  | some p =>
    dsimp only
    split
    · intro h; exact absurd h (by simp)
    · split
      · rename_i heq
        intro _
        have hq := decLoop_ok_ratio _ _ _ heq
        constructor
        · intro hnone; rw [hnone] at hq; exact absurd hq (by simp)
        · intro hemp; exact absurd hemp (by simp)
      · rename_i res heq hne
        intro h
        dsimp only at h
        exact absurd h hne

theorem parseHeader_ok_ratio (o : Option (List Nat × Nat × List Nat)) :
    (parseHeader o).1 = .ok →
    ((parseHeader o).2.2 = none ↔ (parseHeader o).2.1 = []) := by
  rcases o with _ | ⟨buf, inputSize, stream⟩
  · intro h; exact absurd h (by simp [parseHeader])
  · rw [parseHeader]
    dsimp only
    split
    · split
      · split
        · exact decodeBody_ok_ratio _ _ _
        · intro h; exact absurd h (by simp)
      · intro h; exact absurd h (by simp)
    · intro h; exact absurd h (by simp)

/-- Claim C10: when the compressed stream contains no code after the valid
3-byte header, lzwDecompress returns RESULT_OK without assigning the ratio
field of the fileinfo out-parameter (modelled as a none ratio component),
and it produces no output; on every other successful (RESULT_OK) path the
ratio field is assigned and at least one byte has been emitted, so for
successful calls an unassigned ratio occurs exactly on the empty-output
path. -/
theorem claim_C10 (input : List Nat) (m : Nat) (h9 : 9 ≤ m) (h16 : m ≤ 16) :
    ((lzwDecompress [] input).1 = .ok →
      ((lzwDecompress [] input).2.2 = none ↔ (lzwDecompress [] input).2.1 = []))
    ∧ lzwDecompress [] [0x1F, 0x9D, 0x80 ||| m] = (.ok, [], none) := by
  constructor
  · exact parseHeader_ok_ratio _
  · interval_cases m <;> decide

/-- Witness for claim C10: a stream with one code has an assigned ratio and
nonempty output; the bare header stream has neither. -/
theorem claim_C10_witness :
    ((lzwDecompress [] [0x1F, 0x9D, 0x90, 0x41, 0x00]).2.2 = none ↔
      (lzwDecompress [] [0x1F, 0x9D, 0x90, 0x41, 0x00]).2.1 = [])
    ∧ lzwDecompress [] [0x1F, 0x9D, 0x80 ||| 9] = (.ok, [], none) :=
  ⟨(claim_C10 [0x1F, 0x9D, 0x90, 0x41, 0x00] 9 (by decide) (by decide)).1 (by decide),
   (claim_C10 [] 9 (by decide) (by decide)).2⟩

/-! ## Claim C4: validation of the first code after the header or a CLEAR -/

/-- Claim C4 (counterexample): with block compression, a first code equal
to 256 is not rejected: the decoder accepts it (the check is
previousSeq >= nextFree with nextFree = 257) and emits the truncated byte
0, returning RESULT_OK, contradicting the claim that the first code must
be strictly below 256 with FORMAT_ERROR otherwise. -/
theorem claim_C4_counterexample :
    (lzwDecompress [] [0x1F, 0x9D, 0x90, 0x00, 0x01]).1 = .ok
    ∧ (lzwDecompress [] [0x1F, 0x9D, 0x90, 0x00, 0x01]).2.1 = [0] := by
  exact ⟨rfl, rfl⟩

/-- Claim C4 (amended): the first code read after the header, and the first
code read after a CLEAR code, is validated against the initial next_free
(DICT_OFFSET = 257 when block compression is set, 256 otherwise), not
against 256: a first code ≥ next_free yields RESULT_FORMAT_ERROR, and an
accepted first code c emits exactly the byte c mod 256 (equal to c whenever
c < 256; code 256 is accepted under block compression and emits byte 0). -/
theorem claim_C4 :
    (∀ (m : Nat) (bc : Bool) (input : List Nat) (p : Nat) (ds1 : DecState),
      readCode { remaining := input, bitOffset := 0, bytesInGroup := 0, currentBits := 9, inputBytes := 3, outputBytes := 0 } = (some p, ds1) →
      (((if bc = true then DICT_OFFSET else DICT_OFFSET - 1) ≤ p →
          decodeBody m bc input = (.formatError, [], none))
       ∧ (p < (if bc = true then DICT_OFFSET else DICT_OFFSET - 1) →
          ∃ t, (decodeBody m bc input).2.1 = p % 256 :: t
            ∨ (decodeBody m bc input).2.1 = flushedOnly (p % 256 :: t))))
    ∧ (∀ (ctx : DecCtx) (fs : DecFull) (code : Nat) (ds dsp : DecState)
        (p : Nat) (ds3 : DecState),
      ctx.blockCompress = true → code = CLEAR_CODE →
      discardPadding ds = some dsp →
      readCode { dsp with currentBits := 9 } = (some p, ds3) →
      ((ctx.dictOffset ≤ p →
          decStep ctx fs code ds = .halt .formatError none [])
       ∧ (p < ctx.dictOffset →
          decStep ctx fs code ds = .next [p % 256]
            { ds := { ds3 with outputBytes := ds3.outputBytes + 1 }
              dict := fs.dict
              nextFree := ctx.dictOffset
              previousSeq := p }))) := by
  constructor
  · intro m bc input p ds1 hrc
    constructor
    · intro hge
      unfold decodeBody
      dsimp only
      rw [hrc]
      dsimp only
      rw [if_pos hge]
    · intro hlt
      unfold decodeBody
      dsimp only
      rw [hrc]
      dsimp only
      rw [if_neg (by omega)]
      split
      · exact ⟨_, Or.inl rfl⟩
      · exact ⟨_, Or.inr rfl⟩
  · intro ctx fs code ds dsp p ds3 hbc hcode hdp hrc
    have hcond : (ctx.blockCompress = true) ∧ code = CLEAR_CODE := ⟨hbc, hcode⟩
    constructor
    · intro hge
      unfold decStep
      rw [if_pos (by exact ⟨by rw [hbc], hcode⟩), hdp]
      dsimp only
      rw [hrc]
      dsimp only
      rw [if_pos hge]
    · intro hlt
      unfold decStep
      rw [if_pos (by exact ⟨by rw [hbc], hcode⟩), hdp]
      dsimp only
      rw [hrc]
      dsimp only
      rw [if_neg (by omega)]

/-- Witness for claim C4: a first code of 300 after the header is rejected,
a first code 256 is accepted and emits byte 0; the same checks fire after a
CLEAR code. -/
theorem claim_C4_witness :
    (decodeBody 16 true [0x2C, 0x01] = (.formatError, [], none))
    ∧ (∃ t, (decodeBody 16 true [0x00, 0x01]).2.1 = 0 :: t
        ∨ (decodeBody 16 true [0x00, 0x01]).2.1 = flushedOnly (0 :: t)) := by
  have h := claim_C4.1 16 true [0x2C, 0x01] 300
    { remaining := [0x01], bitOffset := 1, bytesInGroup := 1,
      currentBits := 9, inputBytes := 4, outputBytes := 0 } (by decide)
  have h2 := claim_C4.1 16 true [0x00, 0x01] 256
    { remaining := [0x01], bitOffset := 1, bytesInGroup := 1,
      currentBits := 9, inputBytes := 4, outputBytes := 0 } (by decide)
  exact ⟨h.1 (by decide), h2.2 (by decide)⟩

/-! ## Claim C3: rejection of codes above next_free, acceptance at next_free -/

/-- Claim C3: in the decoder main loop, a code read from the stream that is
strictly greater than the current next_free aborts decoding with
RESULT_FORMAT_ERROR (no ratio assigned), while a code equal to next_free is
accepted: it is the KwKwK case, whose step replaces the code by the
previous code for expansion and emits the previous expansion followed by
its own first byte. -/
theorem claim_C3 (fuel : Nat) (ctx : DecCtx) (fs : DecFull) (code : Nat)
    (ds1 : DecState) (hrc : readCode fs.ds = (some code, ds1)) :
    (fs.nextFree < code →
      decLoop (fuel + 1) ctx fs = (.formatError, [], none))
    ∧ (code = fs.nextFree → ¬(ctx.blockCompress = true ∧ code = CLEAR_CODE) →
      (∃ fs1, decStep ctx { fs with ds := ds1 } code ds1 =
          .next (kwkwkBytes fs.dict ctx.dictOffset fs.previousSeq) fs1)
      ∨ decStep ctx { fs with ds := ds1 } code ds1 =
          .halt .formatError none (kwkwkBytes fs.dict ctx.dictOffset fs.previousSeq)) := by
  constructor
  · intro hlt
    rw [decLoop, hrc]
    dsimp only
    rw [if_pos hlt]
  · intro heq hnc
    unfold decStep
    rw [if_neg (by intro hc; exact hnc ⟨by exact_mod_cast hc.1, hc.2⟩)]
    dsimp only
    rw [if_pos heq]
    unfold kwkwkBytes
    split
    · split
      · split
        · exact Or.inr rfl
        · exact Or.inl ⟨_, rfl⟩
      · exact Or.inl ⟨_, rfl⟩
    · exact Or.inl ⟨_, rfl⟩

/-- Witness for claim C3: a code 260 with next_free 257 is rejected; a code
equal to next_free is accepted and expands via the KwKwK rule. -/
theorem claim_C3_witness :
    (decLoop 3 { maxbits := 16, blockCompress := true, dictOffset := DICT_OFFSET }
        { ds := { remaining := [0x04, 0x01], bitOffset := 0, bytesInGroup := 0,
                  currentBits := 9, inputBytes := 4, outputBytes := 1 },
          dict := [], nextFree := 257, previousSeq := 65 } = (.formatError, [], none))
    ∧ ((∃ fs1, decStep { maxbits := 16, blockCompress := true, dictOffset := DICT_OFFSET }
          { ds := { remaining := [0x03], bitOffset := 1, bytesInGroup := 1,
                    currentBits := 9, inputBytes := 5, outputBytes := 1 },
            dict := [], nextFree := 257, previousSeq := 65 } 257
          { remaining := [0x03], bitOffset := 1, bytesInGroup := 1,
            currentBits := 9, inputBytes := 5, outputBytes := 1 } =
          .next (kwkwkBytes [] DICT_OFFSET 65) fs1)
      ∨ decStep { maxbits := 16, blockCompress := true, dictOffset := DICT_OFFSET }
          { ds := { remaining := [0x03], bitOffset := 1, bytesInGroup := 1,
                    currentBits := 9, inputBytes := 5, outputBytes := 1 },
            dict := [], nextFree := 257, previousSeq := 65 } 257
          { remaining := [0x03], bitOffset := 1, bytesInGroup := 1,
            currentBits := 9, inputBytes := 5, outputBytes := 1 } =
          .halt .formatError none (kwkwkBytes [] DICT_OFFSET 65)) := by
  constructor
  · exact (claim_C3 2 { maxbits := 16, blockCompress := true, dictOffset := DICT_OFFSET }
      { ds := { remaining := [0x04, 0x01], bitOffset := 0, bytesInGroup := 0,
                currentBits := 9, inputBytes := 4, outputBytes := 1 },
        dict := [], nextFree := 257, previousSeq := 65 } 260
      { remaining := [0x01], bitOffset := 1, bytesInGroup := 1,
        currentBits := 9, inputBytes := 5, outputBytes := 1 } (by decide)).1 (by decide)
  · exact (claim_C3 0 { maxbits := 16, blockCompress := true, dictOffset := DICT_OFFSET }
      { ds := { remaining := [0x01, 0x03], bitOffset := 0, bytesInGroup := 0,
                currentBits := 9, inputBytes := 4, outputBytes := 1 },
        dict := [], nextFree := 257, previousSeq := 65 } 257
      { remaining := [0x03], bitOffset := 1, bytesInGroup := 1,
        currentBits := 9, inputBytes := 5, outputBytes := 1 } (by decide)).2
      (by decide) (by decide)

/-! ## Claim C6: group padding at width changes -/

/-- Claim C6: at a code-width change the encoder first flushes any pending
partial bits as the low bits of one zero-filled byte and then emits exactly
w_old - (B mod w_old) zero bytes whenever the whole-byte count B of the
group (including the flushed byte) is not a multiple of the old width
(padLen is that count): part 1 gives the writePadding output and state;
part 2 shows the flushed byte holds only the pending low bits (its high
bits are zero); part 3 shows discardPadding skips exactly the same number
of bytes; parts 4 and 5 show the width-growth and 9-bit-quirk transitions
of the encoder miss step factor through writePadding followed by the width
increment. -/
theorem claim_C6 :
    (∀ st : EncState,
      (writePadding st).1 =
          (if 0 < st.bitOffset then [st.pend] else []) ++
            List.replicate (padLen st.bytesInGroup st.bitOffset st.currentBits) 0
        ∧ (writePadding st).2.bytesInGroup = 0
        ∧ (writePadding st).2.bitOffset = 0
        ∧ (writePadding st).2.currentBits = st.currentBits
        ∧ (writePadding st).2.outputBytes =
            st.outputBytes + (if 0 < st.bitOffset then 1 else 0) +
              padLen st.bytesInGroup st.bitOffset st.currentBits)
    ∧ (∀ (st : EncState) (code : Nat), code < 2 ^ st.currentBits →
        0 < (writeCode code st).2.bitOffset →
        (writeCode code st).2.pend < 2 ^ (writeCode code st).2.bitOffset)
    ∧ (∀ st : DecState,
        (padLen st.bytesInGroup st.bitOffset st.currentBits <
            st.remaining.length - (if 0 < st.bitOffset then 1 else 0) →
          discardPadding st = some
            { st with
              remaining := st.remaining.drop
                ((if 0 < st.bitOffset then 1 else 0) +
                  padLen st.bytesInGroup st.bitOffset st.currentBits)
              bitOffset := 0
              bytesInGroup := 0
              inputBytes := st.inputBytes + (if 0 < st.bitOffset then 1 else 0) +
                padLen st.bytesInGroup st.bitOffset st.currentBits })
        ∧ (0 < padLen st.bytesInGroup st.bitOffset st.currentBits →
            st.remaining.length - (if 0 < st.bitOffset then 1 else 0) ≤
              padLen st.bytesInGroup st.bitOffset st.currentBits →
          discardPadding st = none))
    ∧ (∀ (m : Nat) (fs : EncFull) (cur c : Nat),
        fs.nextFree < 2 ^ m →
        fs.nextFree &&& (fs.nextFree - 1) = 0 →
        ¬(fs.nextFree = 512 ∧ m = 9 ∧ (writeCode cur fs.st).2.currentBits = 9) →
        missStep m fs cur c =
          ((writeCode cur fs.st).1 ++ (writePadding (writeCode cur fs.st).2).1,
           { st := { (writePadding (writeCode cur fs.st).2).2 with
                     currentBits :=
                       (writePadding (writeCode cur fs.st).2).2.currentBits + 1 }
             dict := ((cur, c), fs.nextFree) :: fs.dict
             nextFree := fs.nextFree + 1 }))
    ∧ (∀ (m : Nat) (fs : EncFull) (cur c : Nat),
        fs.nextFree = 512 → m = 9 → (writeCode cur fs.st).2.currentBits = 9 →
        (checkRatio { (writePadding (writeCode cur fs.st).2).2 with
            currentBits := 10 }).1 = false →
        missStep m fs cur c =
          ((writeCode cur fs.st).1 ++ (writePadding (writeCode cur fs.st).2).1,
           { fs with st := (checkRatio { (writePadding (writeCode cur fs.st).2).2 with
               currentBits := 10 }).2 })) := by
  refine ⟨?_, ?_, ?_, ?_, ?_⟩
  · intro st
    unfold writePadding padLen
    by_cases hb : 0 < st.bitOffset
    · simp only [hb, if_true, List.length_singleton]
      by_cases hm : (st.bytesInGroup + 1) % st.currentBits = 0
      · simp only [if_pos hm]
        simp
      · simp only [if_neg hm]
        simp
    · simp only [hb, if_false, List.length_nil, Nat.add_zero]
      by_cases hm : st.bytesInGroup % st.currentBits = 0
      · simp only [if_pos hm]
        simp
      · simp only [if_neg hm]
        simp
  · intro st code hcode hpos
    unfold writeCode at hpos ⊢
    dsimp only at hpos ⊢
    by_cases hb : 0 < st.bitOffset
    · simp only [hb, if_true] at hpos ⊢
      set bits0 := st.currentBits - (8 - st.bitOffset) with hbits0
      have hc0 : code >>> (8 - st.bitOffset) < 2 ^ bits0 := by
        rw [Nat.shiftRight_eq_div_pow]
        rw [Nat.div_lt_iff_lt_mul (Nat.pos_pow_of_pos _ (by decide))]
        calc code < 2 ^ st.currentBits := hcode
        _ ≤ 2 ^ bits0 * 2 ^ (8 - st.bitOffset) := by
            rw [← pow_add]
            exact Nat.pow_le_pow_right (by decide) (by omega)
      have he := emitWhole_exit bits0 (code >>> (8 - st.bitOffset)) bits0 le_rfl
      rw [if_pos hpos]
      have hlt := he.2 hc0
      calc (emitWhole bits0 (code >>> (8 - st.bitOffset)) bits0).2.1 % 256
          ≤ (emitWhole bits0 (code >>> (8 - st.bitOffset)) bits0).2.1 :=
            Nat.mod_le _ _
      _ < _ := hlt
    · simp only [hb, if_false] at hpos ⊢
      have he := emitWhole_exit st.currentBits code st.currentBits le_rfl
      rw [if_pos hpos]
      have hlt := he.2 hcode
      calc (emitWhole st.currentBits code st.currentBits).2.1 % 256
          ≤ (emitWhole st.currentBits code st.currentBits).2.1 := Nat.mod_le _ _
      _ < _ := hlt
  · intro st
    unfold discardPadding padLen
    by_cases hb : 0 < st.bitOffset
    · simp only [hb, if_true]
      by_cases hm : (st.bytesInGroup + 1) % st.currentBits = 0
      · simp only [if_pos hm]
        constructor
        · intro _
          have ht : st.remaining.tail = st.remaining.drop 1 := by
            cases st.remaining <;> rfl
          rw [ht]
        · intro hpos _; omega
      · simp only [if_neg hm]
        constructor
        · intro hlen
          rw [if_pos (by simp only [List.length_tail]; omega)]
          have ht : st.remaining.tail = st.remaining.drop 1 := by
            cases st.remaining <;> rfl
          simp only [ht, List.drop_drop]
        · intro _ hlen
          rw [if_neg (by simp only [List.length_tail]; omega)]
    · simp only [hb, if_false, List.length_nil, Nat.add_zero]
      by_cases hm : st.bytesInGroup % st.currentBits = 0
      · simp only [if_pos hm]
        constructor
        · intro _
          have hb0 : st.bitOffset = 0 := by omega
          simp [hb0]
        · intro hpos _; omega
      · simp only [if_neg hm]
        constructor
        · intro hlen
          rw [if_pos (by omega)]
          have hb0 : st.bitOffset = 0 := by omega
          simp [hb0]
        · intro _ hlen
          rw [if_neg (by omega)]
  · intro m fs cur c hroom hpow hq
    simp only [missStep, if_neg hq, if_pos hroom, if_pos hpow]
    simp
  · intro m fs cur c h512 hm9 hw9 hcr
    subst hm9
    have hq : fs.nextFree = 512 ∧ 9 = 9 ∧ (writeCode cur fs.st).2.currentBits = 9 :=
      ⟨h512, rfl, hw9⟩
    have hnl : ¬(fs.nextFree < 2 ^ 9) := by rw [h512]; decide
    try dsimp only at hcr
    simp only [missStep, if_neg hnl]
    rw [if_pos (show fs.nextFree = 512 ∧ True ∧ (writeCode cur fs.st).2.currentBits = 9 from ⟨h512, trivial, hw9⟩)]
    try dsimp only
    rw [hcr]
    simp

/-- Witness for claim C6 at concrete states: the flushed byte keeps only
pending low bits, discardPadding skips flush + pad bytes, and the width
growth and quirk transitions of missStep factor through writePadding. -/
theorem claim_C6_witness :
    ((writeCode 300 encInit).2.pend < 2 ^ (writeCode 300 encInit).2.bitOffset)
    ∧ (discardPadding { remaining := [1, 2, 3, 4, 5, 6, 7, 8, 9, 10], bitOffset := 1, bytesInGroup := 4, currentBits := 9, inputBytes := 7, outputBytes := 0 } =
        some { remaining := List.drop (1 + padLen 4 1 9) [1, 2, 3, 4, 5, 6, 7, 8, 9, 10], bitOffset := 0, bytesInGroup := 0, currentBits := 9, inputBytes := 7 + 1 + padLen 4 1 9, outputBytes := 0 })
    ∧ (missStep 12 { st := encInit, dict := [], nextFree := 512 } 65 66 =
        ((writeCode 65 encInit).1 ++ (writePadding (writeCode 65 encInit).2).1,
         { st := { (writePadding (writeCode 65 encInit).2).2 with
                   currentBits := (writePadding (writeCode 65 encInit).2).2.currentBits + 1 }
           dict := [((65, 66), 512)]
           nextFree := 513 }))
    ∧ (missStep 9 { st := encInit, dict := [], nextFree := 512 } 65 66 =
        ((writeCode 65 encInit).1 ++ (writePadding (writeCode 65 encInit).2).1,
         { st := (checkRatio { (writePadding (writeCode 65 encInit).2).2 with
             currentBits := 10 }).2
           dict := []
           nextFree := 512 })) := by
  refine ⟨?_, ?_, ?_, ?_⟩
  · exact claim_C6.2.1 encInit 300 (by decide) (by decide)
  · have h := (claim_C6.2.2.1 { remaining := [1, 2, 3, 4, 5, 6, 7, 8, 9, 10], bitOffset := 1, bytesInGroup := 4, currentBits := 9, inputBytes := 7, outputBytes := 0 }).1 (by decide)
    exact h
  · have h := claim_C6.2.2.2.1 12 { st := encInit, dict := [], nextFree := 512 } 65 66 (by decide) (by decide) (by decide)
    exact h
  · have h := claim_C6.2.2.2.2 9 { st := encInit, dict := [], nextFree := 512 } 65 66 rfl rfl (by decide) (by decide)
    exact h

/-! ## Claim C5: the maxbits-9 quirk -/

theorem writeCode_trace (code : Nat) (st : EncState) :
    (writeCode code st).2.trace = st.trace ++ [(code, st.currentBits)] := rfl

theorem writeCode_currentBits (code : Nat) (st : EncState) :
    (writeCode code st).2.currentBits = st.currentBits := rfl

theorem writePadding_trace (st : EncState) :
    (writePadding st).2.trace = st.trace := by
  unfold writePadding
  dsimp only
  split <;> split <;> rfl

theorem writePadding_currentBits2 (st : EncState) :
    (writePadding st).2.currentBits = st.currentBits := by
  unfold writePadding
  dsimp only
  split <;> split <;> rfl

theorem checkRatio_trace (st : EncState) :
    ((checkRatio st).2).trace = st.trace := by
  unfold checkRatio
  split
  · rfl
  · dsimp only
    split <;> rfl

theorem checkRatio_currentBits (st : EncState) :
    ((checkRatio st).2).currentBits = st.currentBits := by
  unfold checkRatio
  split
  · rfl
  · dsimp only
    split <;> rfl

theorem dictFind_mem {d : List ((Nat × Nat) × Nat)} {key : Nat × Nat} {v : Nat}
    (h : dictFind d key = some v) : (key, v) ∈ d := by
  induction d with
  | nil => simp [dictFind] at h
  | cons kv rest ih =>
    rcases kv with ⟨k, w⟩
    rw [dictFind] at h
    by_cases hk : k = key
    · rw [if_pos hk] at h
      injection h with h
      subst hk h
      exact List.mem_cons_self _ _
    · rw [if_neg hk] at h
      exact List.mem_cons_of_mem _ (ih h)

theorem no_pow2_between (n : Nat) (h1 : 257 ≤ n) (h2 : n < 512) :
    n &&& (n - 1) ≠ 0 := by
  intro h
  have hb : (n &&& (n - 1)).testBit 8 = true := by
    rw [Nat.testBit_and]
    have h28 : (2 : Nat) ^ 8 = 256 := by norm_num
    have hx : n.testBit 8 = true := by
      rw [Nat.testBit_to_div_mod, h28]
      simp only [decide_eq_true_eq]
      omega
    have hy : (n - 1).testBit 8 = true := by
      rw [Nat.testBit_to_div_mod, h28]
      simp only [decide_eq_true_eq]
      omega
    rw [hx, hy]
    rfl
  rw [h] at hb
  simp at hb

theorem discardPadding_some_currentBits {ds ds2 : DecState}
    (h : discardPadding ds = some ds2) : ds2.currentBits = ds.currentBits := by
  unfold discardPadding at h
  dsimp only at h
  by_cases hb : 0 < ds.bitOffset
  · simp only [hb, if_true] at h
    split at h
    · injection h with h1; subst h1; rfl
    · split at h
      · injection h with h1; subst h1; rfl
      · exact absurd h (by simp)
  · simp only [hb, if_false] at h
    split at h
    · injection h with h1; subst h1; rfl
    · split at h
      · injection h with h1; subst h1; rfl
      · exact absurd h (by simp)

theorem missStep9_inv (fs : EncFull) (cur c : Nat) (hI : Enc9Inv fs)
    (hcur : cur < 512) : Enc9Inv (missStep 9 fs cur c).2 := by
  obtain ⟨htr, hw, hlo, hhi, hdict⟩ := hI
  have htr1 : ∀ cw ∈ (writeCode cur fs.st).2.trace, cw.1 < 512 ∧ (cw.2 = 9 ∨ cw.2 = 10) := by
    rw [writeCode_trace]
    intro cw hcw
    rcases List.mem_append.1 hcw with h | h
    · exact htr cw h
    · simp at h
      subst h
      exact ⟨hcur, hw⟩
  unfold missStep
  dsimp only
  by_cases hquirk : fs.nextFree = 512 ∧ 9 = 9 ∧ (writeCode cur fs.st).2.currentBits = 9
  · rw [if_pos hquirk]
    rw [if_neg (show ¬ (fs.nextFree < 2 ^ 9) by rw [hquirk.1]; decide)]
    dsimp only
    split
    · dsimp only
      refine ⟨?_, Or.inl rfl, by dsimp only; decide, by dsimp only; decide, by simp⟩
      rw [writePadding_trace, writeCode_trace, checkRatio_trace]
      intro cw hcw
      rcases List.mem_append.1 hcw with h | h
      · rw [writePadding_trace] at h
        exact htr1 cw h
      · simp at h
        subst h
        refine ⟨by dsimp only; decide, ?_⟩
        dsimp only
        rw [checkRatio_currentBits]
        exact Or.inr rfl
    · dsimp only
      refine ⟨?_, ?_, hlo, hhi, hdict⟩
      · rw [checkRatio_trace, writePadding_trace]
        exact htr1
      · rw [checkRatio_currentBits]
        exact Or.inr rfl
  · rw [if_neg hquirk]
    by_cases hroom : fs.nextFree < 2 ^ 9
    · rw [if_pos hroom]
      have hpow : ¬ (fs.nextFree &&& (fs.nextFree - 1) = 0) := by
        refine no_pow2_between fs.nextFree hlo ?_
        simpa using hroom
      rw [if_neg hpow]
      dsimp only
      refine ⟨htr1, ?_, by dsimp only; omega, ?_, ?_⟩
      · dsimp only
        rw [writeCode_currentBits]
        exact hw
      · dsimp only
        have hlt : fs.nextFree < 512 := by simpa using hroom
        omega
      · intro kv hkv
        dsimp only at hkv ⊢
        rcases List.mem_cons.1 hkv with h | h
        · subst h
          dsimp only
          omega
        · exact Nat.lt_succ_of_lt (hdict kv h)
    · rw [if_neg hroom]
      dsimp only
      split
      · dsimp only
        refine ⟨?_, Or.inl rfl, by dsimp only; decide, by dsimp only; decide, by simp⟩
        rw [writePadding_trace, writeCode_trace, checkRatio_trace]
        intro cw hcw
        rcases List.mem_append.1 hcw with h | h
        · exact htr1 cw h
        · simp at h
          subst h
          refine ⟨by dsimp only; decide, ?_⟩
          dsimp only
          rw [checkRatio_currentBits, writeCode_currentBits]
          exact hw
      · dsimp only
        refine ⟨?_, ?_, hlo, hhi, hdict⟩
        · rw [checkRatio_trace]
          exact htr1
        · rw [checkRatio_currentBits, writeCode_currentBits]
          exact hw

theorem encLoop9_inv : ∀ (rest : List Nat) (fs : EncFull) (cur : Nat),
    (∀ b ∈ rest, b < 256) → Enc9Inv fs → cur < 512 →
    Enc9Inv (encLoop 9 rest fs cur).2.1 ∧ (encLoop 9 rest fs cur).2.2 < 512 := by
  intro rest
  induction rest with
  | nil => intro fs cur _ hI hcur; exact ⟨hI, hcur⟩
  | cons c rest ih =>
    intro fs cur hb hI hcur
    rw [encLoop]
    dsimp only
    obtain ⟨htr, hw, hlo, hhi, hdict⟩ := hI
    have hI1 : Enc9Inv { fs with st := { fs.st with inputBytes := fs.st.inputBytes + 1 } } :=
      ⟨htr, hw, hlo, hhi, hdict⟩
    rcases hfind : dictFind fs.dict (cur, c) with _ | k
    · dsimp only
      refine ih _ _ (fun b hbm => hb b (List.mem_cons_of_mem _ hbm)) ?_ ?_
      · exact missStep9_inv _ cur c hI1 hcur
      · have := hb c (List.mem_cons_self _ _)
        omega
    · dsimp only
      refine ih _ _ (fun b hbm => hb b (List.mem_cons_of_mem _ hbm)) hI1 ?_
      have hmem := dictFind_mem hfind
      have := hdict _ hmem
      dsimp only at this
      omega

/-- Claim C5: the maxbits-9 quirk.  Part 1: at a miss with next_free = 512
and width still 9, the compressor pads at width 9 and continues at width
10 (the subsequent checkRatio decides between an immediate CLEAR written
at width 10 and plain continuation at width 10).  Part 2: in a whole
maxbits-9 run every traced code is written at width 9 or 10 and its value
is below 512, so at width 10 the most significant bit is always zero.
Part 3: the decoder performs the matching transition to width 10 when its
insert fills slot 511, although the width already equals maxbits. -/
theorem claim_C5 :
    (∀ (fs : EncFull) (cur c : Nat), fs.nextFree = 512 →
      (writeCode cur fs.st).2.currentBits = 9 →
      missStep 9 fs cur c =
        (if (checkRatio { (writePadding (writeCode cur fs.st).2).2 with currentBits := 10 }).1 then
          ((writeCode cur fs.st).1 ++ (writePadding (writeCode cur fs.st).2).1 ++
            (writeCode CLEAR_CODE (checkRatio { (writePadding (writeCode cur fs.st).2).2 with currentBits := 10 }).2).1 ++
            (writePadding (writeCode CLEAR_CODE (checkRatio { (writePadding (writeCode cur fs.st).2).2 with currentBits := 10 }).2).2).1,
           { st := { (writePadding (writeCode CLEAR_CODE (checkRatio { (writePadding (writeCode cur fs.st).2).2 with currentBits := 10 }).2).2).2 with currentBits := 9 }
             dict := []
             nextFree := DICT_OFFSET })
        else
          ((writeCode cur fs.st).1 ++ (writePadding (writeCode cur fs.st).2).1,
           { fs with st := (checkRatio { (writePadding (writeCode cur fs.st).2).2 with currentBits := 10 }).2 })))
    ∧ (∀ B : List Nat, (∀ b ∈ B, b < 256) →
        ∀ cw ∈ encTrace B 9, cw.1 < 512 ∧ (cw.2 = 9 ∨ cw.2 = 10))
    ∧ (∀ (ctx : DecCtx) (fs : DecFull) (code : Nat) (ds : DecState)
         (e : List Nat) (fs1 : DecFull),
        ctx.maxbits = 9 → ds.currentBits = 9 → fs.nextFree = 511 →
        ¬(ctx.blockCompress = true ∧ code = CLEAR_CODE) →
        decStep ctx fs code ds = .next e fs1 →
        fs1.ds.currentBits = 10 ∧ fs1.nextFree = 512) := by
  refine ⟨?_, ?_, ?_⟩
  · intro fs cur c h512 hw9
    unfold missStep
    dsimp only
    rw [if_pos (show fs.nextFree = 512 ∧ 9 = 9 ∧ (writeCode cur fs.st).2.currentBits = 9 from ⟨h512, rfl, hw9⟩)]
    rw [if_neg (show ¬ (fs.nextFree < 2 ^ 9) by rw [h512]; decide)]
  · intro B hB cw hcw
    cases B with
    | nil => simp [encTrace] at hcw
    | cons b rest =>
      unfold encTrace at hcw
      dsimp only at hcw
      rw [writeCode_trace] at hcw
      have hinit : Enc9Inv { st := encInit, dict := [], nextFree := DICT_OFFSET } := by
        refine ⟨?_, Or.inl rfl, by decide, by decide, by simp⟩
        intro cw hcw
        simp [encInit] at hcw
      have hrun := encLoop9_inv rest { st := encInit, dict := [], nextFree := DICT_OFFSET } b
        (fun x hx => hB x (List.mem_cons_of_mem _ hx))
        hinit (by have := hB b (List.mem_cons_self _ _); omega)
      rcases List.mem_append.1 hcw with h | h
      · exact hrun.1.1 cw h
      · simp at h
        subst h
        exact ⟨hrun.2, hrun.1.2.1⟩
  · intro ctx fs code ds e fs1 hm9 hw9 h511 hnc hstep
    unfold decStep at hstep
    rw [if_neg hnc] at hstep
    dsimp only at hstep
    rw [if_pos (show fs.nextFree < 2 ^ ctx.maxbits by rw [hm9, h511]; decide)] at hstep
    rw [if_pos (show (ds.currentBits < ctx.maxbits ∨ ds.currentBits = 9) ∧
        fs.nextFree + 1 &&& (fs.nextFree + 1 - 1) = 0 by
      constructor
      · exact Or.inr hw9
      · rw [h511]; decide)] at hstep
    split at hstep
    · exact absurd hstep (by simp)
    · rename_i ds2 hdp
      injection hstep with h1 h2
      subst h2
      dsimp only
      have hcb := discardPadding_some_currentBits hdp
      constructor
      · rw [hcb]
        dsimp only
        rw [hw9]
      · rw [h511]

/-- Witness for claim C5 at concrete states: the quirk transition of the
compressor at next_free = 512, a traced code of a maxbits-9 run, and the
decoder transition to width 10 at slot 511 with width equal to maxbits. -/
theorem claim_C5_witness :
    (missStep 9 { st := encInit, dict := [], nextFree := 512 } 65 66 =
      (if (checkRatio { (writePadding (writeCode 65 encInit).2).2 with currentBits := 10 }).1 then
        ((writeCode 65 encInit).1 ++ (writePadding (writeCode 65 encInit).2).1 ++
          (writeCode CLEAR_CODE (checkRatio { (writePadding (writeCode 65 encInit).2).2 with currentBits := 10 }).2).1 ++
          (writePadding (writeCode CLEAR_CODE (checkRatio { (writePadding (writeCode 65 encInit).2).2 with currentBits := 10 }).2).2).1,
         { st := { (writePadding (writeCode CLEAR_CODE (checkRatio { (writePadding (writeCode 65 encInit).2).2 with currentBits := 10 }).2).2).2 with currentBits := 9 }
           dict := []
           nextFree := DICT_OFFSET })
      else
        ((writeCode 65 encInit).1 ++ (writePadding (writeCode 65 encInit).2).1,
         { st := (checkRatio { (writePadding (writeCode 65 encInit).2).2 with currentBits := 10 }).2
           dict := []
           nextFree := 512 })))
    ∧ ((65, 9).1 < 512 ∧ ((65, 9).2 = 9 ∨ (65, 9).2 = 10))
    ∧ ({ remaining := [5], bitOffset := 0, bytesInGroup := 0, currentBits := 10, inputBytes := 20, outputBytes := 1 : DecState }.currentBits = 10
        ∧ (512 : Nat) = 512) := by
  refine ⟨?_, ?_, ?_⟩
  · exact claim_C5.1 { st := encInit, dict := [], nextFree := 512 } 65 66 rfl rfl
  · exact claim_C5.2.1 [65, 66] (by decide) (65, 9) (by decide)
  · exact claim_C5.2.2 { maxbits := 9, blockCompress := true, dictOffset := 257 }
      { ds := { remaining := [5], bitOffset := 0, bytesInGroup := 9, currentBits := 9, inputBytes := 20, outputBytes := 0 }, dict := [], nextFree := 511, previousSeq := 65 }
      70
      { remaining := [5], bitOffset := 0, bytesInGroup := 9, currentBits := 9, inputBytes := 20, outputBytes := 0 }
      [70]
      { ds := { remaining := [5], bitOffset := 0, bytesInGroup := 0, currentBits := 10, inputBytes := 20, outputBytes := 1 }, dict := [(65, 70)], nextFree := 512, previousSeq := 70 }
      rfl rfl rfl (by decide) (by decide)

/-! ## Claim C7: the adaptive clear heuristic -/

/-- Claim C7: the compressor starts with best ratio 0 and first check
after CHECK_INTERVAL = 5000 input bytes (part 1).  checkRatio does nothing
before the check offset is reached (part 2); at a check it reschedules the
next check CHECK_INTERVAL input bytes later and computes
r = inputBytes / outputBytes: if r is at least the stored best ratio it
stores r and requests no clear (part 3), otherwise it resets the best
ratio to 0 and requests a clear (part 4).  The CLEAR code is emitted only
when the dictionary is full: at a miss with a non-full dictionary the
ghost trace grows by the emitted code alone, never by CLEAR_CODE (part 5);
at a miss with a full dictionary and a firing checkRatio, the step writes
the code, then CLEAR_CODE, then the group padding, and resets the state to
width 9, next_free = DICT_OFFSET and an empty dictionary (part 6); with a
non-firing checkRatio nothing but the code is written (part 7). -/
theorem claim_C7 :
    (encInit.best = 0 ∧ encInit.checkOffset = CHECK_INTERVAL)
    ∧ (∀ st : EncState, st.inputBytes < st.checkOffset → checkRatio st = (false, st))
    ∧ (∀ st : EncState, ¬(st.inputBytes < st.checkOffset) →
        st.best ≤ (st.inputBytes : ℚ) / (st.outputBytes : ℚ) →
        checkRatio st = (false, { st with
          checkOffset := st.inputBytes + CHECK_INTERVAL
          best := (st.inputBytes : ℚ) / (st.outputBytes : ℚ) }))
    ∧ (∀ st : EncState, ¬(st.inputBytes < st.checkOffset) →
        ¬(st.best ≤ (st.inputBytes : ℚ) / (st.outputBytes : ℚ)) →
        checkRatio st = (true, { st with
          checkOffset := st.inputBytes + CHECK_INTERVAL
          best := 0 }))
    ∧ (∀ (m : Nat) (fs : EncFull) (cur c : Nat), fs.nextFree < 2 ^ m →
        (missStep m fs cur c).2.st.trace = fs.st.trace ++ [(cur, fs.st.currentBits)])
    ∧ (∀ (m : Nat) (fs : EncFull) (cur c : Nat), 2 ^ m ≤ fs.nextFree →
        ¬(fs.nextFree = 512 ∧ m = 9 ∧ (writeCode cur fs.st).2.currentBits = 9) →
        (checkRatio (writeCode cur fs.st).2).1 = true →
        missStep m fs cur c =
          ((writeCode cur fs.st).1 ++
            (writeCode CLEAR_CODE (checkRatio (writeCode cur fs.st).2).2).1 ++
            (writePadding (writeCode CLEAR_CODE (checkRatio (writeCode cur fs.st).2).2).2).1,
           { st := { (writePadding (writeCode CLEAR_CODE (checkRatio (writeCode cur fs.st).2).2).2).2 with currentBits := 9 }
             dict := []
             nextFree := DICT_OFFSET }))
    ∧ (∀ (m : Nat) (fs : EncFull) (cur c : Nat), 2 ^ m ≤ fs.nextFree →
        ¬(fs.nextFree = 512 ∧ m = 9 ∧ (writeCode cur fs.st).2.currentBits = 9) →
        (checkRatio (writeCode cur fs.st).2).1 = false →
        missStep m fs cur c =
          ((writeCode cur fs.st).1,
           { fs with st := (checkRatio (writeCode cur fs.st).2).2 })) := by
  refine ⟨⟨rfl, rfl⟩, ?_, ?_, ?_, ?_, ?_, ?_⟩
  · intro st h
    unfold checkRatio
    rw [if_pos h]
  · intro st h hle
    unfold checkRatio
    rw [if_neg h]
    dsimp only
    rw [if_pos hle]
  · intro st h hle
    unfold checkRatio
    rw [if_neg h]
    dsimp only
    rw [if_neg hle]
  · intro m fs cur c hroom
    have hq : ¬(fs.nextFree = 512 ∧ m = 9 ∧ (writeCode cur fs.st).2.currentBits = 9) := by
      rintro ⟨h1, h2, _⟩
      rw [h1, h2] at hroom
      exact absurd hroom (by decide)
    unfold missStep
    dsimp only
    rw [if_neg hq, if_pos hroom]
    split
    · dsimp only
      rw [writePadding_trace, writeCode_trace]
    · dsimp only
      rw [writeCode_trace]
  · intro m fs cur c hfull hq hfire
    unfold missStep
    dsimp only
    rw [if_neg hq, if_neg (by omega)]
    dsimp only
    rw [hfire]
    simp
  · intro m fs cur c hfull hq hfire
    unfold missStep
    dsimp only
    rw [if_neg hq, if_neg (by omega)]
    dsimp only
    rw [hfire]
    simp

/-- Witness for claim C7 at concrete states: checkRatio below and at the
check offset, and the three miss-step shapes. -/
theorem claim_C7_witness :
    (checkRatio encInit = (false, encInit))
    ∧ ((missStep 12 { st := encInit, dict := [], nextFree := 300 } 65 66).2.st.trace =
        encInit.trace ++ [(65, encInit.currentBits)])
    ∧ (missStep 12 { st := encInit, dict := [], nextFree := 4096 } 65 66 =
        ((writeCode 65 encInit).1,
         { st := (checkRatio (writeCode 65 encInit).2).2
           dict := ([] : List ((Nat × Nat) × Nat))
           nextFree := 4096 })) := by
  refine ⟨?_, ?_, ?_⟩
  · exact (claim_C7.2.1 encInit (by decide))
  · exact (claim_C7.2.2.2.2.1 12 { st := encInit, dict := [], nextFree := 300 } 65 66 (by decide))
  · exact (claim_C7.2.2.2.2.2.2 12 { st := encInit, dict := [], nextFree := 4096 } 65 66 (by decide) (by decide) (by decide))

/-! ## Claim C8: the prefix buffer -/

/-- Counterexample to claim C8: handing back the first header byte 0x1F as
prefix_buffer and streaming the rest changes the outcome.  The header fill
loop reads into the start of the buffer instead of past the prefix, so the
prefix byte is overwritten and the header check fails, while decoding the
whole stream with an empty prefix succeeds. -/
theorem claim_C8_counterexample :
    lzwDecompress [0x1F] [0x9D, 0x90] = (.formatError, [], none)
    ∧ lzwDecompress [] ([0x1F] ++ [0x9D, 0x90]) = (.ok, [], none) :=
  ⟨rfl, rfl⟩

/-- Claim C8 (amended): splitting a compressed stream S as P ++ R and
decoding R with prefix_buffer P gives the same result code, output bytes
and ratio as decoding S with an empty prefix, provided P is empty or holds
at least the full 3-byte header (and fits in the read buffer).  A prefix of
1 or 2 bytes is partially overwritten by the header fill loop (see the
counterexample). -/
theorem claim_C8 (P R : List Nat)
    (h : P = [] ∨ 3 ≤ P.length ∧ P.length ≤ BUFFER_SIZE) :
    lzwDecompress P R = lzwDecompress [] (P ++ R) := by
  rcases h with h | ⟨h3, hb⟩
  · rw [h, List.nil_append]
  · have hPA : P.length ≤ min BUFFER_SIZE (P.length + R.length) :=
      le_min hb (Nat.le_add_right _ _)
    have hA3 : 3 ≤ min BUFFER_SIZE (P.length + R.length) := le_trans h3 hPA
    have hAle : min BUFFER_SIZE (P.length + R.length) ≤ P.length + R.length :=
      min_le_right _ _
    have hL : fillHeader 4 P P.length R = some (P, P.length, R) := by
      unfold fillHeader
      rw [if_pos h3]
    have hR : fillHeader 4 [] 0 (P ++ R) =
        some ((P ++ R).take (min BUFFER_SIZE (P.length + R.length)),
              min BUFFER_SIZE (P.length + R.length),
              (P ++ R).drop (min BUFFER_SIZE (P.length + R.length))) := by
      unfold fillHeader
      rw [if_neg (by omega)]
      dsimp only
      simp only [Nat.sub_zero, List.length_append, List.drop_nil, List.append_nil,
        Nat.zero_add]
      rw [if_neg (by omega)]
      unfold fillHeader
      rw [if_pos hA3]
    simp only [lzwDecompress, List.length_nil]
    rw [hL, hR]
    simp only [parseHeader]
    dsimp only
    have hvL : (P ++ List.replicate (P.length - P.length) 0).take P.length = P := by
      simp
    have hlenR : ((P ++ R).take (min BUFFER_SIZE (P.length + R.length))).length
        = min BUFFER_SIZE (P.length + R.length) := by
      rw [List.length_take, List.length_append]
      omega
    have hvR : ((P ++ R).take (min BUFFER_SIZE (P.length + R.length)) ++
          List.replicate (min BUFFER_SIZE (P.length + R.length) -
            ((P ++ R).take (min BUFFER_SIZE (P.length + R.length))).length) 0).take
          (min BUFFER_SIZE (P.length + R.length))
        = P ++ R.take (min BUFFER_SIZE (P.length + R.length) - P.length) := by
      rw [hlenR, Nat.sub_self, List.replicate_zero, List.append_nil, List.take_take,
        Nat.min_self, List.take_append_eq_append_take, List.take_of_length_le hPA]
    have hstream : (P ++ R).drop (min BUFFER_SIZE (P.length + R.length))
        = R.drop (min BUFFER_SIZE (P.length + R.length) - P.length) := by
      rw [List.drop_append_eq_append_drop, List.drop_eq_nil_of_le hPA, List.nil_append]
    have hdrop3 : (P ++ R.take (min BUFFER_SIZE (P.length + R.length) - P.length)).drop 3
        = P.drop 3 ++ R.take (min BUFFER_SIZE (P.length + R.length) - P.length) := by
      rw [List.drop_append_eq_append_drop]
      have h0 : 3 - P.length = 0 := by omega
      rw [h0, List.drop_zero]
    have hg0 : (P ++ R.take (min BUFFER_SIZE (P.length + R.length) - P.length)).getD 0 0
        = P.getD 0 0 := List.getD_append _ _ _ _ (by omega)
    have hg1 : (P ++ R.take (min BUFFER_SIZE (P.length + R.length) - P.length)).getD 1 0
        = P.getD 1 0 := List.getD_append _ _ _ _ (by omega)
    have hg2 : (P ++ R.take (min BUFFER_SIZE (P.length + R.length) - P.length)).getD 2 0
        = P.getD 2 0 := List.getD_append _ _ _ _ (by omega)
    rw [hvL, hvR, hstream, hg0, hg1, hg2, hdrop3, List.append_assoc,
      List.take_append_drop]

/-- Witness for claim C8: handing back the entire 3-byte header as the
prefix leaves the decode outcome unchanged. -/
theorem claim_C8_witness :
    lzwDecompress [0x1F, 0x9D, 0x90] [] =
      lzwDecompress [] ([0x1F, 0x9D, 0x90] ++ []) :=
  claim_C8 [0x1F, 0x9D, 0x90] [] (Or.inr ⟨by decide, by decide⟩)

end Dxcompress
